import Mathlib

/-!
Verification development for the boWatt2 RAG retrieval pipeline.

Texts are modelled as `List Char` (one element per rune; the Go code indexes
bytes, which coincides with runes on single-byte text). Machine floats
(`float32`/`float64`) are idealised as exact rationals `ℚ`; the code's Newton
square-root loop is carried over literally, so its approximation error is
preserved by the model. Go `int` values that are only ever non-negative are
modelled as `ℕ` (Go's clamp `if start < 0 { start = 0 }` coincides with
truncated subtraction); the request-supplied top-K, which may be negative, is
modelled as `ℤ`.
-/

/-- Go `unicode.IsSpace` restricted to the Latin-1 range (the characters the
chunker and embedder actually meet): space, tab, newline, vertical tab, form
feed, carriage return, NEL and NBSP. -/
def goIsSpace (c : Char) : Bool :=
  c == ' ' || c == '\t' || c == '\n' || c == '\x0b' || c == '\x0c' || c == '\r' ||
    c == '\u0085' || c == ' '

/-- Drop elements satisfying `p` from both ends of a list, as Go's
`strings.Trim` family does with a cutset. -/
def trimBoth (p : Char → Bool) (l : List Char) : List Char :=
  ((((l.dropWhile p).reverse).dropWhile p).reverse)

/-- Go `strings.TrimSpace`. -/
def trimSpace (l : List Char) : List Char := trimBoth goIsSpace l

/-- Accumulator worker for `fields`: `acc` holds the current word, reversed. -/
def fieldsAux : List Char → List Char → List (List Char)
  | acc, [] => if acc.isEmpty then [] else [acc.reverse]
  | acc, c :: cs =>
    if goIsSpace c then
      if acc.isEmpty then fieldsAux [] cs else acc.reverse :: fieldsAux [] cs
    else fieldsAux (c :: acc) cs

/-- Go `strings.Fields`: split around runs of whitespace. -/
def fields (l : List Char) : List (List Char) := fieldsAux [] l

/-- Accumulator worker for `splitNl`. -/
def splitNlAux : List Char → List Char → List (List Char)
  | acc, [] => [acc.reverse]
  | acc, c :: cs =>
    if c == '\n' then acc.reverse :: splitNlAux [] cs else splitNlAux (c :: acc) cs

/-- Go `strings.Split(text, "\n")` (empty pieces included). -/
def splitNl (l : List Char) : List (List Char) := splitNlAux [] l

/-- Go `strings.Join(ws, " ")`. -/
def joinSp : List (List Char) → List Char
  | [] => []
  | [w] => w
  | w :: ws => w ++ ' ' :: joinSp ws

/-- Per-line pass of `cleanText`: trim each line, drop blank lines, collapse
internal whitespace runs via `Fields`+`Join`. -/
def cleanedLines (t : List Char) : List (List Char) :=
  (splitNl t).filterMap fun line =>
    if (trimSpace line).isEmpty then none else some (joinSp (fields (trimSpace line)))

/-- Go `cleanText` (chunker.go): split into lines, clean each, join the
surviving lines with single spaces. -/
def cleanText (t : List Char) : List Char := joinSp (cleanedLines t)

/-- Sentence-terminator set of `findSentenceBoundary`. -/
def isEnder (c : Char) : Bool :=
  c == '.' || c == '!' || c == '?' || c == '。' || c == '！' || c == '？'

/-- First backward scan of `findSentenceBoundary` (chunker.go): from position
`i` down while `i > start`, return `i+1` at a sentence ender followed by
whitespace or end of text. The scan position is the structural argument. -/
def findEnderFrom (t : List Char) (start : ℕ) : ℕ → Option ℕ
  | 0 => none
  | i + 1 =>
    if i + 1 ≤ start then none
    else if isEnder (t.getD (i + 1) ' ') &&
        (t.length ≤ i + 2 || goIsSpace (t.getD (i + 2) ' ')) then some (i + 2)
    else findEnderFrom t start i

/-- Second backward scan: paragraph break (two consecutive newlines), returning
the position after the pair. -/
def findParaFrom (t : List Char) (start : ℕ) : ℕ → Option ℕ
  | 0 => none
  | i + 1 =>
    if i + 1 ≤ start then none
    else if i + 2 < t.length && t.getD (i + 1) ' ' == '\n' &&
        t.getD (i + 2) ' ' == '\n' then some (i + 3)
    else findParaFrom t start i

/-- Third backward scan: any whitespace character, returning the position after
it. -/
def findSpaceFrom (t : List Char) (start : ℕ) : ℕ → Option ℕ
  | 0 => none
  | i + 1 =>
    if i + 1 ≤ start then none
    else if goIsSpace (t.getD (i + 1) ' ') then some (i + 2)
    else findSpaceFrom t start i

/-- Go `findSentenceBoundary` (chunker.go): sentence ender, else paragraph
break, else whitespace, else the raw end. -/
def findSentenceBoundary (t : List Char) (start e : ℕ) : ℕ :=
  if e ≤ start then e
  else
    match findEnderFrom t start (e - 1) with
    | some r => r
    | none =>
      match findParaFrom t start (e - 1) with
      | some r => r
      | none =>
        match findSpaceFrom t start (e - 1) with
        | some r => r
        | none => e

/-- Go slice `t[s:e]`. -/
def goSlice (t : List Char) (s e : ℕ) : List Char := (t.take e).drop s

/-- Advance of `start` at the end of one `ChunkText` loop iteration:
`start = end - overlap` (clamped at 0, which is `ℕ` subtraction), forced to
`oldStart + 1` whenever that would not progress. -/
def nextStart (overlap start e : ℕ) : ℕ :=
  let s := e - overlap
  if s ≤ start then start + 1 else s

/-- End position chosen by one `ChunkText` loop iteration: the raw window end
`min (start+size) len`, replaced by a sentence boundary when one lies strictly
beyond `start + overlap`. -/
def chunkEnd (size overlap : ℕ) (t : List Char) (start : ℕ) : ℕ :=
  let e0 := min (start + size) t.length
  if e0 < t.length then
    let se := findSentenceBoundary t start e0
    if start + overlap < se then se else e0
  else e0

/-- Chunking loop of `ChunkText` (chunker.go). The fuel argument models the
`maxIterations` counter: running out of fuel is the code's soft stop, returning
the chunks accumulated so far. -/
def chunkLoop (size overlap : ℕ) (t : List Char) : ℕ → ℕ → List (List Char) → List (List Char)
  | 0, _, chunks => chunks
  | fuel + 1, start, chunks =>
    if start < t.length then
      let e := chunkEnd size overlap t start
      let ck := trimSpace (goSlice t start e)
      let chunks' := if ck.isEmpty then chunks else chunks ++ [ck]
      let start' := nextStart overlap start e
      if e ≤ start' then chunks'
      else if t.length ≤ start' then chunks'
      else chunkLoop size overlap t fuel start' chunks'
    else chunks

/-- Go `ChunkText` (chunker.go): clean, return `[]` on empty, the whole text
when it fits in one chunk, otherwise run the window loop with
`maxIterations = len / max(size-overlap, 1) + 1000`. -/
def ChunkText (size overlap : ℕ) (text : List Char) : List (List Char) :=
  let t := cleanText text
  if t.length = 0 then []
  else if t.length ≤ size then [t]
  else
    let minChunkSize := if size - overlap = 0 then 1 else size - overlap
    chunkLoop size overlap t (t.length / minChunkSize + 1000) 0 []

/-- Go `strings.ToLower` restricted to ASCII letters (the inputs the claims
exercise). -/
def goToLower (c : Char) : Char :=
  if 'A' ≤ c && c ≤ 'Z' then Char.ofNat (c.toNat + 32) else c

/-- Punctuation cutset of `generateSimpleEmbedding` (embedder.go):
period, comma, bang, question mark, semicolon, colon, double quote, single
quote, parentheses, square brackets, curly brackets. -/
def punctCutset : List Char :=
  ['.', ',', '!', '?', ';', ':', Char.ofNat 34, Char.ofNat 39,
    '(', ')', '[', ']', Char.ofNat 123, Char.ofNat 125]

/-- Go `strings.Trim(word, ".,!?;:...")` in `generateSimpleEmbedding`. -/
def trimPunct (w : List Char) : List Char := trimBoth (punctCutset.contains ·) w

/-- One step of the polynomial rolling hash `hash = hash*31 + int(char)` on a
64-bit machine word. Go's signed `int` wraps on overflow; since the code then
keeps only the low 31 bits, the two's-complement value is fully captured by
arithmetic modulo `2^64` on `ℕ`. -/
def hashStep (h : ℕ) (c : Char) : ℕ := (h * 31 + c.toNat) % 2 ^ 64

/-- Hash of a whole word. -/
def wordHash (w : List Char) : ℕ := w.foldl hashStep 0

/-- Bucket index `(hash & 0x7FFFFFFF) % 128`: masking with `0x7FFFFFFF` keeps
the low 31 bits, i.e. reduces modulo `2^31`. -/
def bucket (w : List Char) : ℕ := wordHash w % 2 ^ 31 % 128

/-- Token list of `generateSimpleEmbedding`: lower-case, then split on
whitespace. -/
def tokens (text : List Char) : List (List Char) := fields (text.map goToLower)

/-- Tokens surviving punctuation stripping (the multiset underlying the
`wordCounts` map). -/
def trimmedTokens (text : List Char) : List (List Char) :=
  ((tokens text).map trimPunct).filter (fun w => !w.isEmpty)

/-- Raw (pre-normalisation) value of embedding bucket `b`: for each distinct
surviving word hashing to `b`, accumulate `count/len(words)`. -/
def rawBucket (text : List Char) (b : ℕ) : ℚ :=
  (((trimmedTokens text).dedup.filter (fun w => bucket w == b)).map
    (fun w => ((trimmedTokens text).count w : ℚ) / ((tokens text).length : ℚ))).sum

/-- The 128-bucket vector before L2 normalisation. -/
def preEmbedding (text : List Char) : List ℚ :=
  (List.range 128).map (rawBucket text)

/-- Sum of squares of a vector's components (the square of its L2 norm, and
exactly the accumulator `norm` the Go code computes before calling `sqrt`). -/
def normSq (v : List ℚ) : ℚ := (v.map fun x => x * x).sum

/-- Newton iteration `z = (z + x/z) / 2` used by the Go `sqrt` helper, started
at `z = x`. -/
def newtonIter (x : ℚ) : ℕ → ℚ
  | 0 => x
  | k + 1 => let z := newtonIter x k; (z + x / z) / 2

/-- Go `sqrt` (embedder.go and mongodb.go): 0 at 0, else ten Newton steps from
`z = x`. -/
def sqrtGo (x : ℚ) : ℚ := if x = 0 then 0 else newtonIter x 10

/-- Go `generateSimpleEmbedding` (embedder.go): bucket the token frequencies,
then divide by the approximate root of the squared norm when it is positive. -/
def generateSimpleEmbedding (text : List Char) : List ℚ :=
  let e := preEmbedding text
  let n := normSq e
  if 0 < n then e.map (fun v => v / sqrtGo n) else e

/-- Embedder state: the configured model name, plus the external Ollama
embedding endpoint abstracted as an oracle (`none` = failed call). -/
structure Embedder where
  model : String
  remote : List Char → Option (List ℚ)

/-- Go `GenerateEmbedding` (embedder.go): the `"simple"` sentinel selects the
local deterministic embedder, anything else calls the remote service. -/
def GenerateEmbedding (e : Embedder) (text : List Char) : Option (List ℚ) :=
  if e.model = "simple" then some (generateSimpleEmbedding text) else e.remote text

/-- Go `GenerateEmbeddingsBatch` (embedder.go): in `"simple"` mode every index
is computed independently into its own pre-sized slot (the goroutine fan-out);
otherwise texts are processed sequentially, aborting the whole batch on the
first failure. -/
def GenerateEmbeddingsBatch (e : Embedder) (texts : List (List Char)) (_batchSize : ℤ) :
    Option (List (List ℚ)) :=
  if e.model = "simple" then
    some ((List.range texts.length).map fun i => generateSimpleEmbedding (texts.getD i []))
  else texts.mapM (GenerateEmbedding e)

/-- Stored chunk record (models.Chunk), restricted to the fields the search
path reads. -/
structure Chunk where
  bookID : String
  chunkIndex : ℕ
  text : String
  embedding : List ℚ
deriving DecidableEq

/-- Search result: a chunk paired with its similarity score
(models.SearchResult). -/
structure SearchResult where
  chunk : Chunk
  score : ℚ
deriving DecidableEq

/-- Dot product accumulator of `cosineSimilarity` (mongodb.go). -/
def dotQ (a b : List ℚ) : ℚ := (List.zipWith (fun x y => x * y) a b).sum

/-- Go `cosineSimilarity` (mongodb.go): 0 on length mismatch, 0 when either
squared norm is 0, else dot product over the product of the approximate
roots of the squared norms. -/
def cosineSimilarity (a b : List ℚ) : ℚ :=
  if a.length ≠ b.length then 0
  else if dotQ a a = 0 ∨ dotQ b b = 0 then 0
  else dotQ a b / (sqrtGo (dotQ a a) * sqrtGo (dotQ b b))

/-- Candidate restriction of `SimpleVectorSearch`: the Mongo `Find` filter is
empty when no book is requested, else an exact `book_id` match. -/
def candidates (db : List Chunk) (bookID : String) : List Chunk :=
  if bookID = "" then db else db.filter (fun c => c.bookID == bookID)

/-- Scoring pass of `SimpleVectorSearch`: skip candidates whose vector length
differs from the query's, score the rest with `cosineSimilarity`. -/
def scoreChunks (q : List ℚ) (chunks : List Chunk) : List SearchResult :=
  (chunks.filter fun c => c.embedding.length == q.length).map
    fun c => ⟨c, cosineSimilarity q c.embedding⟩

/-- Inner pass of the exchange sort in `SimpleVectorSearch`: `cur` plays
`results[i]`; each later element strictly greater than the running maximum is
swapped with it. Returns the final `results[i]` and the updated tail. -/
def innerLoop (cur : SearchResult) : List SearchResult → SearchResult × List SearchResult
  | [] => (cur, [])
  | r :: rs =>
    if cur.score < r.score then
      let p := innerLoop r rs
      (p.1, cur :: p.2)
    else
      let p := innerLoop cur rs
      (p.1, r :: p.2)

/-- Outer loop of the exchange sort; the fuel equals the list length at entry,
which the inner pass preserves, so it never runs out. -/
def selSortAux : ℕ → List SearchResult → List SearchResult
  | 0, l => l
  | _ + 1, [] => []
  | fuel + 1, x :: xs =>
    let p := innerLoop x xs
    p.1 :: selSortAux fuel p.2

/-- Descending score sort of `SimpleVectorSearch` (the nested compare-and-swap
loops). -/
def sortByScoreDesc (l : List SearchResult) : List SearchResult := selSortAux l.length l

/-- Go `SimpleVectorSearch` (mongodb.go): filter by book, score
length-matching candidates, sort by descending score, truncate to `limit`. -/
def SimpleVectorSearch (db : List Chunk) (q : List ℚ) (limit : ℕ) (bookID : String) :
    List SearchResult :=
  (sortByScoreDesc (scoreChunks q (candidates db bookID))).take limit

/-- Go `Retriever.Retrieve` (retriever.go): embed the query, then search; an
embedding failure aborts. -/
def Retrieve (e : Embedder) (db : List Chunk) (query : List Char) (topK : ℕ)
    (bookID : String) : Option (List SearchResult) :=
  (GenerateEmbedding e query).map fun qe => SimpleVectorSearch db qe topK bookID

/-- Top-K fallback in `QueryBook` (controllers): a non-positive requested `k`
is replaced by the configured default. -/
def queryBookTopK (reqTopK : ℤ) (cfgTopK : ℕ) : ℕ :=
  if reqTopK ≤ 0 then cfgTopK else reqTopK.toNat

/-- Go `QueryBook` handler (controllers): reject an empty `book_id`, apply the
top-K fallback, then retrieve. -/
def QueryBook (e : Embedder) (db : List Chunk) (question : List Char) (reqTopK : ℤ)
    (cfgTopK : ℕ) (bookID : String) : Option (List SearchResult) :=
  if bookID = "" then none
  else Retrieve e db question (queryBookTopK reqTopK cfgTopK) bookID

/-! ### Text-utility lemmas -/

/-- Trimmed-ness predicate: the first and last characters (when present) are
not whitespace. -/
def IsTrimmed (l : List Char) : Prop :=
  (∀ c, l.head? = some c → goIsSpace c = false) ∧
    ∀ c, l.getLast? = some c → goIsSpace c = false

theorem joinSp_cons_cons (w v : List Char) (vs : List (List Char)) :
    joinSp (w :: v :: vs) = w ++ ' ' :: joinSp (v :: vs) := rfl

theorem trimBoth_decomp (p : Char → Bool) (l : List Char) :
    ∃ pre post, l = pre ++ trimBoth p l ++ post ∧
      l.dropWhile p = trimBoth p l ++ post := by
  obtain ⟨pre, hpre⟩ := (List.dropWhile_suffix p : l.dropWhile p <:+ l)
  obtain ⟨u, hu⟩ :=
    (List.dropWhile_suffix p :
      (l.dropWhile p).reverse.dropWhile p <:+ (l.dropWhile p).reverse)
  have hd : l.dropWhile p = trimBoth p l ++ u.reverse := by
    conv_lhs => rw [← List.reverse_reverse (l.dropWhile p), ← hu]
    simp [trimBoth]
  refine ⟨pre, u.reverse, ?_, hd⟩
  conv_lhs => rw [← hpre, hd]
  simp [List.append_assoc]

theorem trimBoth_infixOf (p : Char → Bool) (l : List Char) : trimBoth p l <:+: l := by
  obtain ⟨pre, post, h, -⟩ := trimBoth_decomp p l
  exact ⟨pre, post, h.symm⟩

theorem head?_dropWhile (p : Char → Bool) :
    ∀ (l : List Char) (c : Char), (l.dropWhile p).head? = some c → p c = false
  | [], c => by simp
  | x :: xs, c => by
    rw [List.dropWhile_cons]
    split
    · exact head?_dropWhile p xs c
    · rename_i hx
      intro h
      simp only [List.head?_cons, Option.some.injEq] at h
      subst h
      simpa using hx

theorem trimBoth_head? (p : Char → Bool) (l : List Char) (c : Char)
    (h : (trimBoth p l).head? = some c) : p c = false := by
  obtain ⟨pre, post, -, hd⟩ := trimBoth_decomp p l
  have hne : trimBoth p l ≠ [] := by
    intro hnil; rw [hnil] at h; simp at h
  have hh : (l.dropWhile p).head? = some c := by
    rw [hd, List.head?_append_of_ne_nil _ hne, h]
  exact head?_dropWhile p l c hh

theorem trimBoth_getLast? (p : Char → Bool) (l : List Char) (c : Char)
    (h : (trimBoth p l).getLast? = some c) : p c = false := by
  have h' : (((l.dropWhile p).reverse).dropWhile p).head? = some c := by
    have hx := h
    rw [trimBoth, List.getLast?_reverse] at hx
    exact hx
  exact head?_dropWhile p _ c h'

theorem isTrimmed_trimSpace (l : List Char) : IsTrimmed (trimSpace l) :=
  ⟨trimBoth_head? goIsSpace l, trimBoth_getLast? goIsSpace l⟩

theorem dropWhile_eq_self_of_head? {p : Char → Bool} {l : List Char}
    (h : ∀ c, l.head? = some c → p c = false) : l.dropWhile p = l := by
  cases l with
  | nil => rfl
  | cons x xs =>
    rw [List.dropWhile_cons]
    have := h x rfl
    simp [this]

theorem trimSpace_eq_self {l : List Char} (h : IsTrimmed l) : trimSpace l = l := by
  have h1 : l.dropWhile goIsSpace = l := dropWhile_eq_self_of_head? h.1
  have h2 : l.reverse.dropWhile goIsSpace = l.reverse := by
    apply dropWhile_eq_self_of_head?
    intro c hc
    rw [List.head?_reverse] at hc
    exact h.2 c hc
  rw [trimSpace, trimBoth, h1, h2, List.reverse_reverse]

theorem fieldsAux_ne_nil : ∀ (l acc : List Char), acc ≠ [] → fieldsAux acc l ≠ []
  | [], acc, h => by simp [fieldsAux, h]
  | c :: cs, acc, h => by
    rw [fieldsAux]
    split
    · simp [h]
    · exact fieldsAux_ne_nil cs (c :: acc) (by simp)

theorem fieldsAux_words : ∀ (l acc : List Char), (∀ c ∈ acc, goIsSpace c = false) →
    ∀ w ∈ fieldsAux acc l, w ≠ [] ∧ ∀ c ∈ w, goIsSpace c = false
  | [], acc, hacc => by
    rw [fieldsAux]
    split
    · simp
    · rename_i hne
      intro w hw
      simp only [List.mem_singleton] at hw
      subst hw
      refine ⟨by simpa using hne, ?_⟩
      intro c hc
      exact hacc c (List.mem_reverse.mp hc)
  | c :: cs, acc, hacc => by
    rw [fieldsAux]
    split
    · split
      · exact fieldsAux_words cs [] (by simp)
      · rename_i hne
        intro w hw
        rcases List.mem_cons.mp hw with h | h
        · subst h
          refine ⟨by simpa using hne, ?_⟩
          intro d hd
          exact hacc d (List.mem_reverse.mp hd)
        · exact fieldsAux_words cs [] (by simp) w h
    · rename_i hc
      refine fieldsAux_words cs (c :: acc) ?_
      intro d hd
      rcases List.mem_cons.mp hd with h | h
      · subst h; simpa using hc
      · exact hacc d h

theorem fields_words (l : List Char) :
    ∀ w ∈ fields l, w ≠ [] ∧ ∀ c ∈ w, goIsSpace c = false :=
  fieldsAux_words l [] (by simp)

theorem fields_ne_nil {l : List Char} {c : Char} (h : l.head? = some c)
    (hc : goIsSpace c = false) : fields l ≠ [] := by
  cases l with
  | nil => simp at h
  | cons x xs =>
    simp only [List.head?_cons, Option.some.injEq] at h
    subst h
    rw [fields, fieldsAux, if_neg (by simp [hc])]
    exact fieldsAux_ne_nil xs [x] (by simp)

theorem joinSp_ne_nil : ∀ (w : List Char) (ws : List (List Char)), w ≠ [] →
    joinSp (w :: ws) ≠ []
  | w, [], h => h
  | w, v :: vs, h => by
    rw [joinSp_cons_cons]
    simp

theorem joinSp_head? : ∀ (w : List Char) (ws : List (List Char)), w ≠ [] →
    (joinSp (w :: ws)).head? = w.head?
  | _, [], _ => rfl
  | w, v :: vs, h => by
    rw [joinSp_cons_cons]
    exact List.head?_append_of_ne_nil _ h

theorem joinSp_getLast? : ∀ (ws : List (List Char)) (w : List Char),
    (∀ u ∈ ws, u ≠ []) → ws.getLast? = some w →
    (joinSp ws).getLast? = w.getLast?
  | [], w, _, h => by simp at h
  | [u], w, _, h => by
    simp only [List.getLast?_singleton, Option.some.injEq] at h
    subst h
    rfl
  | u :: v :: vs, w, hne, h => by
    rw [List.getLast?_cons_cons] at h
    rw [joinSp_cons_cons, List.getLast?_append_of_ne_nil _ (by simp)]
    have hv : joinSp (v :: vs) ≠ [] :=
      joinSp_ne_nil v vs (hne v (by simp))
    obtain ⟨y, ys, hY⟩ := List.exists_cons_of_ne_nil hv
    have ih := joinSp_getLast? (v :: vs) w
      (fun u hu => hne u (List.mem_cons_of_mem _ hu)) h
    rw [hY] at ih ⊢
    rw [List.getLast?_cons_cons]
    exact ih

theorem mem_joinSp : ∀ (ws : List (List Char)) (c : Char), c ∈ joinSp ws →
    c = ' ' ∨ ∃ w ∈ ws, c ∈ w
  | [], c, h => by simp [joinSp] at h
  | [w], c, h => Or.inr ⟨w, by simp, h⟩
  | w :: v :: vs, c, h => by
    rw [joinSp_cons_cons] at h
    rcases List.mem_append.mp h with h | h
    · exact Or.inr ⟨w, by simp, h⟩
    · rcases List.mem_cons.mp h with h | h
      · exact Or.inl h
      · rcases mem_joinSp (v :: vs) c h with h | ⟨u, hu, hc⟩
        · exact Or.inl h
        · exact Or.inr ⟨u, List.mem_cons_of_mem _ hu, hc⟩

theorem cleanedLines_good (t : List Char) :
    ∀ x ∈ cleanedLines t, x ≠ [] ∧
      (∀ c, x.head? = some c → goIsSpace c = false) ∧
      (∀ c, x.getLast? = some c → goIsSpace c = false) := by
  intro x hx
  simp only [cleanedLines, List.mem_filterMap] at hx
  obtain ⟨line, -, hline⟩ := hx
  by_cases hemp : (trimSpace line).isEmpty
  · rw [if_pos hemp] at hline
    simp at hline
  · rw [if_neg hemp] at hline
    have hxe : x = joinSp (fields (trimSpace line)) := (Option.some_inj.mp hline).symm
    have hne : trimSpace line ≠ [] := by
      intro h; rw [h] at hemp; simp at hemp
    obtain ⟨c0, l0, hl0⟩ := List.exists_cons_of_ne_nil hne
    have hc0 : goIsSpace c0 = false :=
      (isTrimmed_trimSpace line).1 c0 (by rw [hl0]; rfl)
    have hfne : fields (trimSpace line) ≠ [] :=
      fields_ne_nil (by rw [hl0]; rfl) hc0
    obtain ⟨w, ws, hws⟩ := List.exists_cons_of_ne_nil hfne
    have hwords := fields_words (trimSpace line)
    have hw : w ≠ [] := (hwords w (by rw [hws]; simp)).1
    subst hxe
    rw [hws]
    refine ⟨joinSp_ne_nil w ws hw, ?_, ?_⟩
    · intro c hc
      rw [joinSp_head? w ws hw] at hc
      exact (hwords w (by rw [hws]; simp)).2 c (List.mem_of_mem_head? hc)
    · intro c hc
      have hnn : ∀ u ∈ w :: ws, u ≠ [] := by
        intro u hu
        exact (hwords u (by rw [hws]; exact hu)).1
      have hex : (w :: ws).getLast? = some ((w :: ws).getLast (by simp)) :=
        List.getLast?_eq_getLast _ _
      rw [joinSp_getLast? (w :: ws) _ hnn hex] at hc
      exact (hwords _ (by rw [hws]; exact List.getLast_mem _)).2 c
        (List.mem_of_mem_getLast? hc)

theorem cleanText_isTrimmed (t : List Char) : IsTrimmed (cleanText t) := by
  rw [cleanText]
  cases hL : cleanedLines t with
  | nil => exact ⟨by simp [joinSp], by simp [joinSp]⟩
  | cons w ws =>
    have hgood := cleanedLines_good t
    rw [hL] at hgood
    have hw : w ≠ [] := (hgood w (by simp)).1
    constructor
    · intro c hc
      rw [joinSp_head? w ws hw] at hc
      exact (hgood w (by simp)).2.1 c hc
    · intro c hc
      have hnn : ∀ u ∈ w :: ws, u ≠ [] := fun u hu => (hgood u hu).1
      have hex : (w :: ws).getLast? = some ((w :: ws).getLast (by simp)) :=
        List.getLast?_eq_getLast _ _
      rw [joinSp_getLast? (w :: ws) _ hnn hex] at hc
      exact (hgood _ (List.getLast_mem _)).2.2 c hc

theorem cleanText_no_nl (t : List Char) : '\n' ∉ cleanText t := by
  intro h
  rw [cleanText] at h
  rcases mem_joinSp _ _ h with h | ⟨x, hx, hmem⟩
  · simp at h
  · simp only [cleanedLines, List.mem_filterMap] at hx
    obtain ⟨line, -, hline⟩ := hx
    by_cases hemp : (trimSpace line).isEmpty
    · rw [if_pos hemp] at hline
      simp at hline
    · rw [if_neg hemp] at hline
      have hxe : x = joinSp (fields (trimSpace line)) := (Option.some_inj.mp hline).symm
      subst hxe
      rcases mem_joinSp _ _ hmem with h' | ⟨u, hu, hc⟩
      · simp at h'
      · have := (fields_words (trimSpace line) u hu).2 '\n' hc
        simp [goIsSpace] at this

/-! ### Chunker lemmas -/

/-- Chunk accumulation step of the loop: append the trimmed window when it is
non-empty. -/
def chunkAcc (chunks : List (List Char)) (ck : List Char) : List (List Char) :=
  if ck.isEmpty then chunks else chunks ++ [ck]

theorem chunkLoop_succ (size overlap : ℕ) (t : List Char) (fuel start : ℕ)
    (chunks : List (List Char)) :
    chunkLoop size overlap t (fuel + 1) start chunks =
      if start < t.length then
        if chunkEnd size overlap t start ≤
            nextStart overlap start (chunkEnd size overlap t start) then
          chunkAcc chunks (trimSpace (goSlice t start (chunkEnd size overlap t start)))
        else if t.length ≤ nextStart overlap start (chunkEnd size overlap t start) then
          chunkAcc chunks (trimSpace (goSlice t start (chunkEnd size overlap t start)))
        else
          chunkLoop size overlap t fuel
            (nextStart overlap start (chunkEnd size overlap t start))
            (chunkAcc chunks (trimSpace (goSlice t start (chunkEnd size overlap t start))))
      else chunks := rfl

theorem findEnderFrom_le (t : List Char) (start : ℕ) :
    ∀ (i r : ℕ), findEnderFrom t start i = some r → r ≤ i + 1
  | 0, r, h => by simp [findEnderFrom] at h
  | i + 1, r, h => by
    rw [findEnderFrom] at h
    split at h
    · simp at h
    · split at h
      · simp only [Option.some.injEq] at h
        omega
      · have := findEnderFrom_le t start i r h
        omega

theorem findSpaceFrom_le (t : List Char) (start : ℕ) :
    ∀ (i r : ℕ), findSpaceFrom t start i = some r → r ≤ i + 1
  | 0, r, h => by simp [findSpaceFrom] at h
  | i + 1, r, h => by
    rw [findSpaceFrom] at h
    split at h
    · simp at h
    · split at h
      · simp only [Option.some.injEq] at h
        omega
      · have := findSpaceFrom_le t start i r h
        omega

theorem findParaFrom_nl (t : List Char) (start : ℕ) :
    ∀ (i r : ℕ), findParaFrom t start i = some r → '\n' ∈ t
  | 0, r, h => by simp [findParaFrom] at h
  | i + 1, r, h => by
    rw [findParaFrom] at h
    split at h
    · simp at h
    · split at h
      · rename_i hcond
        simp only [Bool.and_eq_true, decide_eq_true_eq, beq_iff_eq] at hcond
        obtain ⟨⟨hlt, h1⟩, -⟩ := hcond
        have hi : i + 1 < t.length := by omega
        rw [List.getD_eq_getElem _ _ hi] at h1
        rw [← h1]
        exact List.getElem_mem hi
      · exact findParaFrom_nl t start i r h

theorem findSentenceBoundary_le (t : List Char) (hnl : '\n' ∉ t) (start e : ℕ) :
    findSentenceBoundary t start e ≤ e := by
  rw [findSentenceBoundary]
  split
  · exact Nat.le_refl e
  · rename_i hse
    split
    · rename_i r hE
      have h1 := findEnderFrom_le t start (e - 1) r hE
      omega
    · split
      · rename_i r hP
        exact absurd (findParaFrom_nl t start (e - 1) r hP) hnl
      · split
        · rename_i r hS
          have h1 := findSpaceFrom_le t start (e - 1) r hS
          omega
        · exact Nat.le_refl e

theorem chunkEnd_le (size overlap : ℕ) (t : List Char) (hnl : '\n' ∉ t) (start : ℕ) :
    chunkEnd size overlap t start ≤ start + size := by
  rw [chunkEnd]
  have h0 : min (start + size) t.length ≤ start + size := Nat.min_le_left _ _
  split
  · have hb := findSentenceBoundary_le t hnl start (min (start + size) t.length)
    show (if start + overlap < findSentenceBoundary t start (min (start + size) t.length) then
        findSentenceBoundary t start (min (start + size) t.length)
      else min (start + size) t.length) ≤ start + size
    split
    · omega
    · exact h0
  · exact h0

theorem goSlice_length_le (t : List Char) (s e : ℕ) : (goSlice t s e).length ≤ e - s := by
  rw [goSlice]
  simp only [List.length_drop, List.length_take]
  omega

theorem goSlice_infixOf (t : List Char) (s e : ℕ) : goSlice t s e <:+: t := by
  refine ⟨(t.take e).take s, t.drop e, ?_⟩
  rw [goSlice, List.take_append_drop s (t.take e), List.take_append_drop e t]

theorem trimSpace_length_le (l : List Char) : (trimSpace l).length ≤ l.length :=
  (trimBoth_infixOf goIsSpace l).sublist.length_le

theorem chunkLoop_le_size (size overlap : ℕ) (t : List Char) (hnl : '\n' ∉ t) :
    ∀ (fuel start : ℕ) (chunks : List (List Char)),
      (∀ ck ∈ chunks, ck.length ≤ size) →
      ∀ ck ∈ chunkLoop size overlap t fuel start chunks, ck.length ≤ size := by
  intro fuel
  induction fuel with
  | zero =>
    intro start chunks h
    simpa [chunkLoop] using h
  | succ fuel ih =>
    intro start chunks h
    rw [chunkLoop_succ]
    have hacc : ∀ ck ∈ chunkAcc chunks (trimSpace (goSlice t start (chunkEnd size overlap t start))),
        ck.length ≤ size := by
      intro ck hck
      rw [chunkAcc] at hck
      split at hck
      · exact h ck hck
      · rcases List.mem_append.mp hck with h' | h'
        · exact h ck h'
        · rw [List.mem_singleton] at h'
          subst h'
          have h1 := trimSpace_length_le (goSlice t start (chunkEnd size overlap t start))
          have h2 := goSlice_length_le t start (chunkEnd size overlap t start)
          have h3 := chunkEnd_le size overlap t hnl start
          omega
    split
    · split
      · exact hacc
      · split
        · exact hacc
        · exact ih _ _ hacc
    · exact h

theorem ChunkText_eq (size overlap : ℕ) (text : List Char) :
    ChunkText size overlap text =
      if (cleanText text).length = 0 then []
      else if (cleanText text).length ≤ size then [cleanText text]
      else
        chunkLoop size overlap (cleanText text)
          ((cleanText text).length / (if size - overlap = 0 then 1 else size - overlap) + 1000)
          0 [] := rfl

theorem lt_nextStart (overlap start e : ℕ) : start < nextStart overlap start e := by
  rw [nextStart]
  split <;> omega

theorem chunkAcc_append (acc : List (List Char)) (ck : List Char) :
    chunkAcc acc ck = acc ++ chunkAcc [] ck := by
  rw [chunkAcc, chunkAcc]
  split <;> simp

theorem chunkLoop_append (size overlap : ℕ) (t : List Char) :
    ∀ (fuel start : ℕ) (acc : List (List Char)),
      chunkLoop size overlap t fuel start acc = acc ++ chunkLoop size overlap t fuel start [] := by
  intro fuel
  induction fuel with
  | zero => intro start acc; simp [chunkLoop]
  | succ fuel ih =>
    intro start acc
    rw [chunkLoop_succ, chunkLoop_succ size overlap t fuel start []]
    split
    · split
      · exact chunkAcc_append acc _
      · split
        · exact chunkAcc_append acc _
        · rw [ih _ (chunkAcc acc _), ih _ (chunkAcc [] _), chunkAcc_append acc]
          simp [List.append_assoc]
    · simp

theorem chunkLoop_nil_spec (size overlap : ℕ) (t : List Char) :
    ∀ (fuel start : ℕ), ∃ ps : List (ℕ × ℕ),
      chunkLoop size overlap t fuel start [] =
        ps.map (fun p => trimSpace (goSlice t p.1 p.2)) ∧
      (ps.map Prod.fst).Pairwise (· < ·) ∧
      ∀ p ∈ ps, start ≤ p.1 ∧ trimSpace (goSlice t p.1 p.2) ≠ [] := by
  intro fuel
  induction fuel with
  | zero =>
    intro start
    exact ⟨[], by simp [chunkLoop], by simp, by simp⟩
  | succ fuel ih =>
    intro start
    rw [chunkLoop_succ]
    by_cases hs : start < t.length
    case neg =>
      rw [if_neg hs]
      exact ⟨[], by simp, by simp, by simp⟩
    rw [if_pos hs]
    by_cases hemp : (trimSpace (goSlice t start (chunkEnd size overlap t start))).isEmpty
    · have hAcc : chunkAcc ([] : List (List Char))
          (trimSpace (goSlice t start (chunkEnd size overlap t start))) = [] := by
        rw [chunkAcc, if_pos hemp]
      split
      · exact ⟨[], by rw [hAcc]; rfl, by simp, by simp⟩
      · split
        · exact ⟨[], by rw [hAcc]; rfl, by simp, by simp⟩
        · obtain ⟨ps', hmap, hpw, hprop⟩ :=
            ih (nextStart overlap start (chunkEnd size overlap t start))
          refine ⟨ps', by rw [hAcc, hmap], hpw, ?_⟩
          intro p hp
          have := hprop p hp
          have hlt := lt_nextStart overlap start (chunkEnd size overlap t start)
          exact ⟨by omega, this.2⟩
    · have hne : trimSpace (goSlice t start (chunkEnd size overlap t start)) ≠ [] := by
        intro h
        rw [h] at hemp
        simp at hemp
      have hAcc : chunkAcc ([] : List (List Char))
          (trimSpace (goSlice t start (chunkEnd size overlap t start))) =
          [trimSpace (goSlice t start (chunkEnd size overlap t start))] := by
        rw [chunkAcc, if_neg hemp]
        rfl
      split
      · refine ⟨[(start, chunkEnd size overlap t start)], by rw [hAcc]; rfl, by simp, ?_⟩
        intro p hp
        rw [List.mem_singleton] at hp
        subst hp
        exact ⟨Nat.le_refl _, hne⟩
      · split
        · refine ⟨[(start, chunkEnd size overlap t start)], by rw [hAcc]; rfl, by simp, ?_⟩
          intro p hp
          rw [List.mem_singleton] at hp
          subst hp
          exact ⟨Nat.le_refl _, hne⟩
        · obtain ⟨ps', hmap, hpw, hprop⟩ :=
            ih (nextStart overlap start (chunkEnd size overlap t start))
          have hlt := lt_nextStart overlap start (chunkEnd size overlap t start)
          refine ⟨(start, chunkEnd size overlap t start) :: ps', ?_, ?_, ?_⟩
          · rw [chunkLoop_append, hAcc, hmap]
            rfl
          · rw [List.map_cons, List.pairwise_cons]
            refine ⟨?_, hpw⟩
            intro y hy
            rw [List.mem_map] at hy
            obtain ⟨p, hp, hpy⟩ := hy
            have := (hprop p hp).1
            omega
          · intro p hp
            rcases List.mem_cons.mp hp with h | h
            · subst h
              exact ⟨Nat.le_refl _, hne⟩
            · have := hprop p h
              exact ⟨by omega, this.2⟩

theorem chunkLoop_stable (size overlap : ℕ) (t : List Char) :
    ∀ (d start fuel : ℕ) (chunks : List (List Char)), t.length - start ≤ d →
      t.length - start ≤ fuel →
      chunkLoop size overlap t fuel start chunks =
        chunkLoop size overlap t (t.length - start) start chunks := by
  intro d
  induction d with
  | zero =>
    intro start fuel chunks hd hf
    have h0 : t.length - start = 0 := Nat.le_zero.mp hd
    have hs : ¬ start < t.length := by omega
    rw [h0]
    cases fuel with
    | zero => rfl
    | succ f => rw [chunkLoop_succ, if_neg hs]; rfl
  | succ d ihd =>
    intro start fuel chunks hd hf
    by_cases hs : start < t.length
    case neg =>
      have h0 : t.length - start = 0 := by omega
      rw [h0]
      cases fuel with
      | zero => rfl
      | succ f => rw [chunkLoop_succ, if_neg hs]; rfl
    case pos =>
      have hm : t.length - start ≠ 0 := by omega
      obtain ⟨m, hm'⟩ := Nat.exists_eq_succ_of_ne_zero hm
      obtain ⟨f, hf'⟩ : ∃ f, fuel = f + 1 := by
        cases fuel with
        | zero => omega
        | succ f => exact ⟨f, rfl⟩
      subst hf'
      rw [hm', chunkLoop_succ, chunkLoop_succ, if_pos hs, if_pos hs]
      have hlt := lt_nextStart overlap start (chunkEnd size overlap t start)
      split
      · rfl
      · split
        · rfl
        · rename_i hb1 hb2
          have hlen : nextStart overlap start (chunkEnd size overlap t start) < t.length := by
            omega
          have h1 : t.length - nextStart overlap start (chunkEnd size overlap t start) ≤ d := by
            omega
          have h2 : t.length - nextStart overlap start (chunkEnd size overlap t start) ≤ f := by
            omega
          have h3 : t.length - nextStart overlap start (chunkEnd size overlap t start) ≤ m := by
            omega
          rw [ihd _ f _ h1 h2, ihd _ m _ h1 h3]

/-! ### Chunker claims -/

/-- C3: for every input text whose cleaned form has length at most the chunk
size, chunking returns exactly one chunk equal to the cleaned text when the
cleaned text is non-empty, and the empty sequence (not an error) when the
cleaned text is empty. -/
theorem claim3_small_text (text : List Char) (size overlap : ℕ)
    (h : (cleanText text).length ≤ size) :
    ChunkText size overlap text =
      if cleanText text = [] then [] else [cleanText text] := by
  rw [ChunkText_eq]
  by_cases h0 : (cleanText text).length = 0
  · rw [if_pos h0, if_pos (List.length_eq_zero.mp h0)]
  · rw [if_neg h0, if_pos h, if_neg (fun hh => h0 (by rw [hh]; rfl))]

/-- Witness for C3 at a concrete text and chunk size. -/
theorem claim3_witness :
    (cleanText "hi there".toList).length ≤ 20 ∧
    ChunkText 20 5 "hi there".toList =
      (if cleanText "hi there".toList = [] then [] else [cleanText "hi there".toList]) :=
  ⟨by decide, claim3_small_text "hi there".toList 20 5 (by decide)⟩

/-- C4: every chunk emitted by chunking is a non-empty, whitespace-trimmed,
contiguous substring of the cleaned text, taken from a window list whose start
positions are strictly increasing. -/
theorem claim4_chunk_structure (text : List Char) (size overlap : ℕ) :
    ∃ ps : List (ℕ × ℕ),
      ChunkText size overlap text =
        ps.map (fun p => trimSpace (goSlice (cleanText text) p.1 p.2)) ∧
      (ps.map Prod.fst).Pairwise (· < ·) ∧
      ∀ ck ∈ ChunkText size overlap text,
        ck ≠ [] ∧ ck <:+: cleanText text ∧ IsTrimmed ck := by
  rw [ChunkText_eq]
  by_cases h0 : (cleanText text).length = 0
  · rw [if_pos h0]
    exact ⟨[], rfl, by simp, by simp⟩
  rw [if_neg h0]
  by_cases h1 : (cleanText text).length ≤ size
  · rw [if_pos h1]
    refine ⟨[(0, (cleanText text).length)], ?_, by simp, ?_⟩
    · have hg : goSlice (cleanText text) 0 (cleanText text).length = cleanText text := by
        rw [goSlice, List.take_length, List.drop_zero]
      rw [List.map_cons, List.map_nil, hg, trimSpace_eq_self (cleanText_isTrimmed text)]
    · intro ck hck
      rw [List.mem_singleton] at hck
      subst hck
      exact ⟨fun h => h0 (by rw [h]; rfl), List.infix_refl _, cleanText_isTrimmed text⟩
  · rw [if_neg h1]
    obtain ⟨ps, hmap, hpw, hprop⟩ := chunkLoop_nil_spec size overlap (cleanText text)
      ((cleanText text).length / (if size - overlap = 0 then 1 else size - overlap) + 1000) 0
    refine ⟨ps, hmap, hpw, ?_⟩
    intro ck hck
    rw [hmap, List.mem_map] at hck
    obtain ⟨p, hp, hpe⟩ := hck
    subst hpe
    exact ⟨(hprop p hp).2, (trimBoth_infixOf _ _).trans (goSlice_infixOf _ _ _),
      isTrimmed_trimSpace _⟩

/-- C5: the chunking loop always terminates: every iteration strictly advances
the start position, and the iteration budget is a soft stop — any fuel at
least `length - start` (in particular the code's
`length / max(size-overlap,1) + 1000` budget whenever it is that large)
produces the same final chunk list as the stabilised run, so the loop result
never depends on running forever. -/
theorem claim5_termination (size overlap : ℕ) (t : List Char) :
    (∀ start e, start < nextStart overlap start e) ∧
    ∀ (start fuel : ℕ) (chunks : List (List Char)), t.length - start ≤ fuel →
      chunkLoop size overlap t fuel start chunks =
        chunkLoop size overlap t (t.length - start) start chunks :=
  ⟨fun start e => lt_nextStart overlap start e,
   fun start fuel chunks hf =>
     chunkLoop_stable size overlap t (t.length - start) start fuel chunks (Nat.le_refl _) hf⟩

/-- Witness for C5 at concrete parameters. -/
theorem claim5_witness :
    (0 < nextStart 5 0 20) ∧
    chunkLoop 20 5 "abc".toList 7 0 [] =
      chunkLoop 20 5 "abc".toList ("abc".toList.length - 0) 0 [] :=
  ⟨(claim5_termination 20 5 "abc".toList).1 0 20,
   (claim5_termination 20 5 "abc".toList).2 0 7 [] (by decide)⟩

/-- C10: every chunk returned by chunking has length at most the chunk size
(the cleaned text contains no newline, so the paragraph-break fallback never
fires and every boundary is at or before the raw window end). Proved for every
`ℕ`-valued size and overlap, which covers the claim's positive sizes. -/
theorem claim10_chunk_within_size (text : List Char) (size overlap : ℕ) :
    ∀ ck ∈ ChunkText size overlap text, ck.length ≤ size := by
  rw [ChunkText_eq]
  by_cases h0 : (cleanText text).length = 0
  · rw [if_pos h0]
    simp
  rw [if_neg h0]
  by_cases h1 : (cleanText text).length ≤ size
  · rw [if_pos h1]
    intro ck hck
    rw [List.mem_singleton] at hck
    subst hck
    exact h1
  · rw [if_neg h1]
    exact chunkLoop_le_size size overlap (cleanText text) (cleanText_no_nl text) _ 0 []
      (by simp)

/-! ### Exchange-sort lemmas -/

theorem innerLoop_cons (cur r : SearchResult) (rs : List SearchResult) :
    innerLoop cur (r :: rs) =
      if cur.score < r.score then ((innerLoop r rs).1, cur :: (innerLoop r rs).2)
      else ((innerLoop cur rs).1, r :: (innerLoop cur rs).2) := rfl

theorem innerLoop_perm (cur : SearchResult) :
    ∀ l : List SearchResult, ((innerLoop cur l).1 :: (innerLoop cur l).2).Perm (cur :: l)
  | [] => by simp [innerLoop]
  | r :: rs => by
    rw [innerLoop_cons]
    split
    · have ih := innerLoop_perm r rs
      exact (List.Perm.swap cur (innerLoop r rs).1 (innerLoop r rs).2).trans
        (List.Perm.cons cur ih)
    · have ih := innerLoop_perm cur rs
      exact (List.Perm.swap r (innerLoop cur rs).1 (innerLoop cur rs).2).trans
        ((List.Perm.cons r ih).trans (List.Perm.swap cur r rs))

theorem innerLoop_le : ∀ (l : List SearchResult) (cur : SearchResult),
    cur.score ≤ (innerLoop cur l).1.score ∧
      ∀ r ∈ (innerLoop cur l).2, r.score ≤ (innerLoop cur l).1.score
  | [], cur => ⟨le_refl _, by simp [innerLoop]⟩
  | r :: rs, cur => by
    rw [innerLoop_cons]
    split
    · rename_i hlt
      have ih := innerLoop_le rs r
      refine ⟨le_trans (le_of_lt hlt) ih.1, ?_⟩
      intro x hx
      rcases List.mem_cons.mp hx with h | h
      · subst h
        exact le_trans (le_of_lt hlt) ih.1
      · exact ih.2 x h
    · rename_i hge
      have ih := innerLoop_le rs cur
      refine ⟨ih.1, ?_⟩
      intro x hx
      rcases List.mem_cons.mp hx with h | h
      · subst h
        exact le_trans (le_of_not_lt hge) ih.1
      · exact ih.2 x h

theorem innerLoop_length (cur : SearchResult) (l : List SearchResult) :
    (innerLoop cur l).2.length = l.length := by
  have h := (innerLoop_perm cur l).length_eq
  simpa using h

theorem selSortAux_cons (fuel : ℕ) (x : SearchResult) (xs : List SearchResult) :
    selSortAux (fuel + 1) (x :: xs) =
      (innerLoop x xs).1 :: selSortAux fuel (innerLoop x xs).2 := rfl

theorem selSortAux_perm : ∀ (fuel : ℕ) (l : List SearchResult), l.length ≤ fuel →
    (selSortAux fuel l).Perm l
  | 0, l, _ => List.Perm.refl l
  | _ + 1, [], _ => List.Perm.refl []
  | fuel + 1, x :: xs, h => by
    rw [selSortAux_cons]
    have hlen : (innerLoop x xs).2.length ≤ fuel := by
      rw [innerLoop_length]
      simpa using h
    have ih := selSortAux_perm fuel (innerLoop x xs).2 hlen
    exact (List.Perm.cons _ ih).trans (innerLoop_perm x xs)

theorem selSortAux_sorted : ∀ (fuel : ℕ) (l : List SearchResult), l.length ≤ fuel →
    (selSortAux fuel l).Pairwise (fun a b => b.score ≤ a.score)
  | 0, l, h => by
    have : l = [] := List.length_eq_zero.mp (Nat.le_zero.mp h)
    subst this
    simp [selSortAux]
  | _ + 1, [], _ => by simp [selSortAux]
  | fuel + 1, x :: xs, h => by
    rw [selSortAux_cons]
    have hlen : (innerLoop x xs).2.length ≤ fuel := by
      rw [innerLoop_length]
      simpa using h
    refine List.pairwise_cons.mpr ⟨?_, selSortAux_sorted fuel _ hlen⟩
    intro y hy
    have hmem : y ∈ (innerLoop x xs).2 := (selSortAux_perm fuel _ hlen).mem_iff.mp hy
    exact (innerLoop_le xs x).2 y hmem

theorem sortByScoreDesc_perm (l : List SearchResult) : (sortByScoreDesc l).Perm l :=
  selSortAux_perm l.length l (Nat.le_refl _)

theorem sortByScoreDesc_sorted (l : List SearchResult) :
    (sortByScoreDesc l).Pairwise (fun a b => b.score ≤ a.score) :=
  selSortAux_sorted l.length l (Nat.le_refl _)

theorem mem_simpleVectorSearch {db : List Chunk} {q : List ℚ} {limit : ℕ} {bookID : String}
    {r : SearchResult} (h : r ∈ SimpleVectorSearch db q limit bookID) :
    ∃ c ∈ candidates db bookID, c.embedding.length = q.length ∧
      r = ⟨c, cosineSimilarity q c.embedding⟩ := by
  rw [SimpleVectorSearch] at h
  have h1 : r ∈ sortByScoreDesc (scoreChunks q (candidates db bookID)) :=
    List.take_subset _ _ h
  have h2 : r ∈ scoreChunks q (candidates db bookID) :=
    (sortByScoreDesc_perm _).mem_iff.mp h1
  rw [scoreChunks, List.mem_map] at h2
  obtain ⟨c, hc, hr⟩ := h2
  rw [List.mem_filter] at hc
  exact ⟨c, hc.1, by simpa using hc.2, hr.symm⟩

/-! ### Search claims -/

/-- C1: for positive `k`, the similarity search scores exactly the candidates
whose stored vector length matches the query's (each scored with the code's
cosine-similarity function), returns them sorted by descending score, and
truncates to the first `k` (its length is `min k` the number of scored
candidates). -/
theorem claim1_search_pipeline (db : List Chunk) (q : List ℚ) (k : ℕ) (bookID : String)
    (_hk : 0 < k) :
    (∀ r ∈ SimpleVectorSearch db q k bookID,
      ∃ c ∈ candidates db bookID, c.embedding.length = q.length ∧
        r = ⟨c, cosineSimilarity q c.embedding⟩) ∧
    (SimpleVectorSearch db q k bookID).Pairwise (fun a b => b.score ≤ a.score) ∧
    (SimpleVectorSearch db q k bookID).length =
      min k (scoreChunks q (candidates db bookID)).length := by
  refine ⟨fun r hr => mem_simpleVectorSearch hr, ?_, ?_⟩
  · rw [SimpleVectorSearch]
    exact List.Pairwise.sublist (List.take_sublist _ _) (sortByScoreDesc_sorted _)
  · rw [SimpleVectorSearch, List.length_take, (sortByScoreDesc_perm _).length_eq]

/-- Witness for C1 at a concrete database and query. -/
theorem claim1_witness :
    0 < 2 ∧
    ((∀ r ∈ SimpleVectorSearch
        [⟨"b", 0, "t", [1, 0]⟩, ⟨"b", 1, "u", [0, 1]⟩] [1, 0] 2 "",
      ∃ c ∈ candidates [⟨"b", 0, "t", [1, 0]⟩, ⟨"b", 1, "u", [0, 1]⟩] "",
        c.embedding.length = List.length ([1, 0] : List ℚ) ∧
          r = ⟨c, cosineSimilarity [1, 0] c.embedding⟩) ∧
    (SimpleVectorSearch [⟨"b", 0, "t", [1, 0]⟩, ⟨"b", 1, "u", [0, 1]⟩] [1, 0] 2 "").Pairwise
      (fun a b => b.score ≤ a.score) ∧
    (SimpleVectorSearch [⟨"b", 0, "t", [1, 0]⟩, ⟨"b", 1, "u", [0, 1]⟩] [1, 0] 2 "").length =
      min 2 (scoreChunks [1, 0]
        (candidates [⟨"b", 0, "t", [1, 0]⟩, ⟨"b", 1, "u", [0, 1]⟩] "")).length) :=
  ⟨by decide,
   claim1_search_pipeline [⟨"b", 0, "t", [1, 0]⟩, ⟨"b", 1, "u", [0, 1]⟩] [1, 0] 2 ""
     (by decide)⟩

/-- C2: with a non-empty document filter, every result's chunk carries exactly
the requested book identifier. -/
theorem claim2_book_filter (db : List Chunk) (q : List ℚ) (k : ℕ) (bookID : String)
    (hb : bookID ≠ "") :
    ∀ r ∈ SimpleVectorSearch db q k bookID, r.chunk.bookID = bookID := by
  intro r hr
  obtain ⟨c, hc, -, hr2⟩ := mem_simpleVectorSearch hr
  rw [candidates, if_neg hb, List.mem_filter] at hc
  have hcb : c.bookID = bookID := by simpa using hc.2
  rw [hr2]
  exact hcb

/-- Witness for C2 at a concrete filtered database. -/
theorem claim2_witness :
    ("b1" : String) ≠ "" ∧
    ∀ r ∈ SimpleVectorSearch
      [⟨"b1", 0, "t", [1, 0]⟩, ⟨"b2", 0, "u", [1, 0]⟩] [1, 0] 1 "b1",
      r.chunk.bookID = "b1" :=
  ⟨by decide,
   claim2_book_filter [⟨"b1", 0, "t", [1, 0]⟩, ⟨"b2", 0, "u", [1, 0]⟩] [1, 0] 1 "b1"
     (by decide)⟩

/-! ### Batch-embedding and top-K claims -/

theorem range_map_getD (f : List Char → List ℚ) : ∀ l : List (List Char),
    (List.range l.length).map (fun i => f (l.getD i [])) = l.map f
  | [] => by simp
  | x :: xs => by
    rw [List.length_cons, List.range_succ_eq_map, List.map_cons, List.map_map]
    have h2 : ((fun i => f ((x :: xs).getD i [])) ∘ Nat.succ) =
        fun i => f (xs.getD i []) := by
      funext i
      rfl
    rw [h2, range_map_getD f xs]
    rfl

theorem mapM_simple (e : Embedder) (he : e.model = "simple") :
    ∀ texts : List (List Char),
      texts.mapM (GenerateEmbedding e) = some (texts.map generateSimpleEmbedding)
  | [] => rfl
  | t :: ts => by
    have ih := mapM_simple e he ts
    rw [List.mapM_cons, ih]
    simp [GenerateEmbedding, he]

/-- C8: in local (`"simple"`) mode, batch embedding over N texts returns
exactly the N vectors of the single-text embedder in input order — identical
to the sequential per-text path — even though the code computes each
pre-indexed slot independently. -/
theorem claim8_batch_refinement (e : Embedder) (texts : List (List Char)) (batchSize : ℤ)
    (he : e.model = "simple") :
    GenerateEmbeddingsBatch e texts batchSize = some (texts.map generateSimpleEmbedding) ∧
    texts.mapM (GenerateEmbedding e) = some (texts.map generateSimpleEmbedding) ∧
    (texts.map generateSimpleEmbedding).length = texts.length := by
  refine ⟨?_, mapM_simple e he texts, by simp⟩
  rw [GenerateEmbeddingsBatch, if_pos he, range_map_getD]

/-- Witness for C8 at a concrete embedder and batch. -/
theorem claim8_witness :
    GenerateEmbeddingsBatch ⟨"simple", fun _ => none⟩ ["ab".toList] 4 =
      some ((["ab".toList]).map generateSimpleEmbedding) ∧
    (["ab".toList]).mapM (GenerateEmbedding ⟨"simple", fun _ => none⟩) =
      some ((["ab".toList]).map generateSimpleEmbedding) ∧
    ((["ab".toList]).map generateSimpleEmbedding).length = (["ab".toList]).length :=
  claim8_batch_refinement ⟨"simple", fun _ => none⟩ ["ab".toList] 4 rfl

/-- C9: a non-positive requested top-K falls back to the configured default:
the query handler behaves exactly as a retrieval with the configured top-K. -/
theorem claim9_topk_fallback (e : Embedder) (db : List Chunk) (question : List Char)
    (reqTopK : ℤ) (cfgTopK : ℕ) (bookID : String) (hreq : reqTopK ≤ 0) (hb : bookID ≠ "") :
    queryBookTopK reqTopK cfgTopK = cfgTopK ∧
    QueryBook e db question reqTopK cfgTopK bookID = Retrieve e db question cfgTopK bookID := by
  have h1 : queryBookTopK reqTopK cfgTopK = cfgTopK := by
    rw [queryBookTopK, if_pos hreq]
  exact ⟨h1, by rw [QueryBook, if_neg hb, h1]⟩

/-- Witness for C9 at a concrete non-positive request. -/
theorem claim9_witness :
    queryBookTopK (-3) 5 = 5 ∧
    QueryBook ⟨"simple", fun _ => none⟩ [] "q".toList (-3) 5 "b1" =
      Retrieve ⟨"simple", fun _ => none⟩ [] "q".toList 5 "b1" :=
  claim9_topk_fallback ⟨"simple", fun _ => none⟩ [] "q".toList (-3) 5 "b1"
    (by decide) (by decide)

/-! ### Newton-iteration analysis of the Go `sqrt` helper -/

theorem newtonIter_pos (x : ℚ) (hx : 0 < x) : ∀ k, 0 < newtonIter x k
  | 0 => hx
  | k + 1 => by
    have hz := newtonIter_pos x hx k
    show 0 < (newtonIter x k + x / newtonIter x k) / 2
    positivity

theorem newtonIter_sq_ge (x : ℚ) (hx : 0 < x) (k : ℕ) : x ≤ (newtonIter x (k + 1)) ^ 2 := by
  have hz : 0 < newtonIter x k := newtonIter_pos x hx k
  have hzne : newtonIter x k ≠ 0 := ne_of_gt hz
  show x ≤ ((newtonIter x k + x / newtonIter x k) / 2) ^ 2
  have key : ((newtonIter x k + x / newtonIter x k) / 2) ^ 2 - x =
      ((newtonIter x k ^ 2 - x) / (2 * newtonIter x k)) ^ 2 := by
    field_simp
    ring
  nlinarith [sq_nonneg ((newtonIter x k ^ 2 - x) / (2 * newtonIter x k))]

theorem newton_step_contract (x z : ℚ) (hx : 0 < x) (hz : 0 < z) (hge : x ≤ z ^ 2) :
    ((z + x / z) / 2) ^ 2 - x ≤ (z ^ 2 - x) / 4 := by
  have hzne : z ≠ 0 := ne_of_gt hz
  have key : ((z + x / z) / 2) ^ 2 - x = ((z ^ 2 - x) / (2 * z)) ^ 2 := by
    field_simp
    ring
  rw [key, div_pow, div_le_div_iff₀ (by positivity) (by norm_num)]
  nlinarith [mul_nonneg (sub_nonneg.mpr hge) (le_of_lt hx)]

theorem newton_err_decay (x : ℚ) (hx : 0 < x) :
    ∀ j, (newtonIter x (j + 1)) ^ 2 - x ≤ ((x - 1) / 2) ^ 2 / 4 ^ j
  | 0 => by
    have h1 : newtonIter x 1 = (x + 1) / 2 := by
      show (newtonIter x 0 + x / newtonIter x 0) / 2 = (x + 1) / 2
      rw [show newtonIter x 0 = x from rfl, div_self (ne_of_gt hx)]
    rw [h1]
    have h2 : ((x + 1) / 2) ^ 2 - x = ((x - 1) / 2) ^ 2 := by ring
    rw [h2, pow_zero, div_one]
  | j + 1 => by
    have ih := newton_err_decay x hx j
    have hz : 0 < newtonIter x (j + 1) := newtonIter_pos x hx _
    have hge : x ≤ (newtonIter x (j + 1)) ^ 2 := newtonIter_sq_ge x hx j
    have hc := newton_step_contract x (newtonIter x (j + 1)) hx hz hge
    have hstep : (newtonIter x (j + 1 + 1)) ^ 2 - x ≤ ((newtonIter x (j + 1)) ^ 2 - x) / 4 := hc
    have h4 : ((x - 1) / 2) ^ 2 / 4 ^ j / 4 = ((x - 1) / 2) ^ 2 / 4 ^ (j + 1) := by
      rw [div_div, ← pow_succ]
    linarith

theorem sqrtGo_norm_bounds (x : ℚ) (hl : 1 / 128 ≤ x) (hu : x ≤ 128) :
    1 - 1 / 1000 ≤ x / (sqrtGo x) ^ 2 ∧ x / (sqrtGo x) ^ 2 ≤ 1 := by
  have hx : 0 < x := lt_of_lt_of_le (by norm_num) hl
  have hxne : x ≠ 0 := ne_of_gt hx
  rw [sqrtGo, if_neg hxne]
  have hge : x ≤ (newtonIter x 10) ^ 2 := newtonIter_sq_ge x hx 9
  have hs2 : 0 < (newtonIter x 10) ^ 2 := lt_of_lt_of_le hx hge
  have herr : (newtonIter x 10) ^ 2 - x ≤ ((x - 1) / 2) ^ 2 / 4 ^ 9 := newton_err_decay x hx 9
  have herr' : (newtonIter x 10) ^ 2 - x ≤ (x - 1) ^ 2 / 1048576 := by
    have hq : ((x - 1) / 2) ^ 2 / 4 ^ 9 = (x - 1) ^ 2 / 1048576 := by ring
    linarith
  have hquad : (x - 1) ^ 2 ≤ 127 * x := by
    nlinarith [mul_nonneg (by linarith : (0 : ℚ) ≤ x - 1 / 128)
      (by linarith : (0 : ℚ) ≤ 128 - x)]
  constructor
  · rw [le_div_iff₀ hs2]
    nlinarith
  · exact (div_le_one hs2).mpr hge

/-! ### Embedding-norm lemmas -/

theorem normSq_cons (x : ℚ) (v : List ℚ) : normSq (x :: v) = x * x + normSq v := by
  simp [normSq]

theorem normSq_map_div (v : List ℚ) (s : ℚ) :
    normSq (v.map fun x => x / s) = normSq v / s ^ 2 := by
  induction v with
  | nil => simp [normSq]
  | cons x xs ih =>
    rw [List.map_cons, normSq_cons, normSq_cons, ih]
    by_cases hs : s = 0
    · simp [hs]
    · field_simp
      ring

theorem listRangeMapSum : ∀ (n : ℕ) (f : ℕ → ℚ),
    ((List.range n).map f).sum = ∑ b in Finset.range n, f b
  | 0, f => by simp
  | n + 1, f => by
    rw [List.range_succ, List.map_append, List.sum_append, Finset.sum_range_succ,
      listRangeMapSum n f]
    simp

theorem list_sum_map_div (l : List (List Char)) (g : List Char → ℚ) (d : ℚ) :
    (l.map fun w => g w / d).sum = (l.map g).sum / d := by
  induction l with
  | nil => simp
  | cons x xs ih => simp [ih, add_div]

theorem list_sum_map_natCast (l : List (List Char)) (g : List Char → ℕ) :
    (l.map fun w => ((g w : ℕ) : ℚ)).sum = (((l.map g).sum : ℕ) : ℚ) := by
  induction l with
  | nil => simp
  | cons x xs ih => simp [ih]

theorem sum_ite_eq_ite_mem (a : List Char) :
    ∀ L : List (List Char), L.Nodup →
      (L.map fun w => if w == a then (1 : ℕ) else 0).sum = if a ∈ L then 1 else 0 := by
  intro L
  induction L with
  | nil => simp
  | cons x xs ih =>
    intro hnd
    rw [List.map_cons, List.sum_cons, ih (List.Nodup.of_cons hnd)]
    by_cases hxa : x = a
    · subst hxa
      have hx : x ∉ xs := (List.nodup_cons.mp hnd).1
      simp [hx]
    · have h1 : (x == a) = false := by simp [hxa]
      rw [h1]
      simp [List.mem_cons, Ne.symm hxa]

theorem sum_count_dedup_filter (p : List Char → Bool) :
    ∀ l : List (List Char),
      ((l.dedup.filter p).map fun w => l.count w).sum = l.countP p := by
  intro l
  induction l with
  | nil => simp
  | cons a as ih =>
    rw [List.countP_cons, ← ih]
    have hc : ∀ w, (a :: as).count w = as.count w + if a == w then 1 else 0 := by
      intro w
      rw [List.count_cons]
    by_cases ha : a ∈ as
    · rw [List.dedup_cons_of_mem ha]
      have hmap : (as.dedup.filter p).map (fun w => (a :: as).count w) =
          (as.dedup.filter p).map fun w => as.count w + if w == a then 1 else 0 := by
        apply List.map_congr_left
        intro w _
        rw [hc w]
        by_cases hw : w = a
        · subst hw
          simp
        · have h1 : (a == w) = false := by simp [Ne.symm hw]
          have h2 : (w == a) = false := by simp [hw]
          rw [h1, h2]
      rw [hmap, List.sum_map_add, sum_ite_eq_ite_mem a _ ((List.nodup_dedup as).filter p)]
      by_cases hp : p a
      · have hmem : a ∈ as.dedup.filter p :=
          List.mem_filter.mpr ⟨List.mem_dedup.mpr ha, hp⟩
        rw [if_pos hmem, if_pos hp]
      · have hmem : a ∉ as.dedup.filter p := fun hm => hp (List.mem_filter.mp hm).2
        rw [if_neg hmem, if_neg hp]
    · rw [List.dedup_cons_of_not_mem ha, List.filter_cons]
      have hmap : (as.dedup.filter p).map (fun w => (a :: as).count w) =
          (as.dedup.filter p).map fun w => as.count w := by
        apply List.map_congr_left
        intro w hw
        have hwas : w ∈ as := List.mem_dedup.mp (List.mem_filter.mp hw).1
        have hwa : (a == w) = false := by
          simp only [beq_eq_false_iff_ne]
          intro he
          subst he
          exact ha hwas
        rw [hc w, hwa]
        simp
      by_cases hp : p a
      · rw [if_pos hp, List.map_cons, List.sum_cons, hmap]
        have h1 : (a :: as).count a = 1 := by
          rw [hc a, List.count_eq_zero.mpr ha]
          simp
        rw [h1, if_pos hp]
        omega
      · rw [if_neg hp, hmap, if_neg hp]
        omega

theorem rawBucket_eq (text : List Char) (b : ℕ) :
    rawBucket text b =
      (((trimmedTokens text).countP fun w => bucket w == b : ℕ) : ℚ) /
        ((tokens text).length : ℚ) := by
  rw [rawBucket, list_sum_map_div, list_sum_map_natCast,
    sum_count_dedup_filter]

theorem bucket_lt (w : List Char) : bucket w < 128 :=
  Nat.mod_lt _ (by norm_num)

theorem sum_countP_bucket (l : List (List Char)) :
    (∑ b in Finset.range 128, l.countP fun w => bucket w == b) = l.length := by
  induction l with
  | nil => simp
  | cons w ws ih =>
    simp only [List.countP_cons]
    rw [Finset.sum_add_distrib, ih]
    have hone : (∑ b in Finset.range 128, if (bucket w == b) = true then 1 else 0) = 1 := by
      have hsw : ∀ b, (if (bucket w == b) = true then (1 : ℕ) else 0) =
          if bucket w = b then 1 else 0 := by
        intro b
        simp [beq_iff_eq]
      rw [Finset.sum_congr rfl fun b _ => hsw b,
        Finset.sum_ite_eq (Finset.range 128) (bucket w) fun _ => 1,
        if_pos (Finset.mem_range.mpr (bucket_lt w))]
    rw [hone]
    simp

theorem normSq_preEmbedding (text : List Char) :
    normSq (preEmbedding text) =
      ∑ b in Finset.range 128,
        ((((trimmedTokens text).countP fun w => bucket w == b : ℕ) : ℚ) /
          ((tokens text).length : ℚ)) ^ 2 := by
  rw [normSq, preEmbedding, List.map_map, listRangeMapSum]
  refine Finset.sum_congr rfl fun b _ => ?_
  simp only [Function.comp_apply]
  rw [rawBucket_eq, ← pow_two]

theorem normSq_gse_of_pos (text : List Char) (h : 0 < normSq (preEmbedding text)) :
    normSq (generateSimpleEmbedding text) =
      normSq (preEmbedding text) / (sqrtGo (normSq (preEmbedding text))) ^ 2 := by
  have hunf : generateSimpleEmbedding text =
      (preEmbedding text).map fun v => v / sqrtGo (normSq (preEmbedding text)) := by
    simp only [generateSimpleEmbedding]
    rw [if_pos h]
  rw [hunf, normSq_map_div]

theorem normSq_preEmbedding_single (text : List Char) (w : List Char)
    (h : trimmedTokens text = [w]) :
    normSq (preEmbedding text) = (1 / ((tokens text).length : ℚ)) ^ 2 := by
  rw [normSq_preEmbedding, h]
  have hper : ∀ b ∈ Finset.range 128,
      (((([w] : List (List Char)).countP fun u => bucket u == b : ℕ) : ℚ) /
          ((tokens text).length : ℚ)) ^ 2 =
        if bucket w = b then (1 / ((tokens text).length : ℚ)) ^ 2 else 0 := by
    intro b _
    rw [List.countP_cons, List.countP_nil]
    by_cases hb : bucket w = b
    · simp [hb]
    · simp [hb]
  rw [Finset.sum_congr rfl hper,
    Finset.sum_ite_eq (Finset.range 128) (bucket w) fun _ => (1 / ((tokens text).length : ℚ)) ^ 2,
    if_pos (Finset.mem_range.mpr (bucket_lt w))]

/-! ### Cosine-similarity claims -/

/-- C7 (amended): cosine similarity is symmetric and exactly zero when either
squared norm is zero; self-similarity is within `1/1000` of 1 provided the
squared norm lies in `[1/128, 128]` — the range in which the ten Newton steps
of the Go `sqrt` have converged (outside it the original claim fails, see the
counterexample). -/
theorem claim7_cosine_props (a b : List ℚ) :
    cosineSimilarity a b = cosineSimilarity b a ∧
    (dotQ a a = 0 ∨ dotQ b b = 0 → cosineSimilarity a b = 0) ∧
    (1 / 128 ≤ dotQ a a → dotQ a a ≤ 128 →
      1 - 1 / 1000 ≤ cosineSimilarity a a ∧ cosineSimilarity a a ≤ 1) := by
  refine ⟨?_, ?_, ?_⟩
  · have hd : dotQ a b = dotQ b a := by
      rw [dotQ, dotQ, List.zipWith_comm_of_comm (fun x y => x * y) mul_comm]
    by_cases hl : a.length = b.length
    · by_cases hz : dotQ a a = 0 ∨ dotQ b b = 0
      · have hz2 : dotQ b b = 0 ∨ dotQ a a = 0 := Or.symm hz
        simp only [cosineSimilarity, hl, ne_eq, not_true_eq_false, if_false,
          if_pos hz, if_pos hz2]
      · have hz2 : ¬(dotQ b b = 0 ∨ dotQ a a = 0) := fun h => hz (Or.symm h)
        simp only [cosineSimilarity, hl, ne_eq, not_true_eq_false, if_false,
          if_neg hz, if_neg hz2]
        rw [hd, mul_comm]
    · have hl2 : b.length ≠ a.length := fun h => hl h.symm
      simp only [cosineSimilarity, ne_eq, hl, hl2, not_false_eq_true, if_true]
  · intro hz
    by_cases hl : a.length = b.length
    · simp only [cosineSimilarity, hl, ne_eq, not_true_eq_false, if_false, if_pos hz]
    · simp only [cosineSimilarity, ne_eq, hl, not_false_eq_true, if_true]
  · intro h1 h2
    rw [cosineSimilarity, if_neg (fun h => h rfl)]
    have hz : ¬(dotQ a a = 0 ∨ dotQ a a = 0) := by
      intro h
      have h0 : dotQ a a = 0 := by
        rcases h with h | h <;> exact h
      rw [h0] at h1
      norm_num at h1
    rw [if_neg hz]
    have hsq : sqrtGo (dotQ a a) * sqrtGo (dotQ a a) = (sqrtGo (dotQ a a)) ^ 2 :=
      (pow_two _).symm
    rw [hsq]
    exact sqrtGo_norm_bounds (dotQ a a) h1 h2

/-- Witness for C7 at concrete vectors. -/
theorem claim7_witness :
    cosineSimilarity [(1 : ℚ) / 2] [(3 : ℚ)] = cosineSimilarity [(3 : ℚ)] [(1 : ℚ) / 2] ∧
    cosineSimilarity [(0 : ℚ)] [(5 : ℚ)] = 0 ∧
    (1 - 1 / 1000 ≤ cosineSimilarity [(1 : ℚ) / 2] [(1 : ℚ) / 2] ∧
      cosineSimilarity [(1 : ℚ) / 2] [(1 : ℚ) / 2] ≤ 1) :=
  ⟨(claim7_cosine_props [(1 : ℚ) / 2] [(3 : ℚ)]).1,
   (claim7_cosine_props [(0 : ℚ)] [(5 : ℚ)]).2.1 (Or.inl (by norm_num [dotQ])),
   (claim7_cosine_props [(1 : ℚ) / 2] [(1 : ℚ) / 2]).2.2
     (by norm_num [dotQ]) (by norm_num [dotQ])⟩

/-- C7 counterexample: the claim as stated is false — for the nonzero vector
`[1024]`, self-similarity is about `0.58`, far below 1: ten Newton steps
started at `z = x` have not converged for `x = 2^20`. -/
theorem claim7_counterexample :
    dotQ [(1024 : ℚ)] [(1024 : ℚ)] ≠ 0 ∧
    cosineSimilarity [(1024 : ℚ)] [(1024 : ℚ)] < 1 - 1 / 100 := by
  constructor
  · norm_num [dotQ]
  · norm_num [cosineSimilarity, dotQ, sqrtGo, newtonIter]

/-! ### Local-embedder claims -/

/-- C6 (amended): the local embedder is a pure function returning a 128-length
vector, and its L2 norm is within `1/1000` of 1 whenever the text has at least
one token and every token survives punctuation stripping. (As originally
stated — requiring only one surviving token — the claim fails: a text diluted
by many punctuation-only tokens drives the pre-normalisation norm below the
range in which the ten Newton steps of `sqrt` converge; see the
counterexample.) -/
theorem claim6_deterministic_norm (text : List Char) :
    generateSimpleEmbedding text = generateSimpleEmbedding text ∧
    (generateSimpleEmbedding text).length = 128 ∧
    (tokens text ≠ [] → (∀ w ∈ tokens text, trimPunct w ≠ []) →
      1 - 1 / 1000 ≤ normSq (generateSimpleEmbedding text) ∧
        normSq (generateSimpleEmbedding text) ≤ 1) := by
  refine ⟨rfl, ?_, ?_⟩
  · simp only [generateSimpleEmbedding]
    split <;> simp [preEmbedding]
  · intro htok htrim
    have hW1 : 0 < (tokens text).length := List.length_pos.mpr htok
    have hWpos : (0 : ℚ) < ((tokens text).length : ℚ) := by exact_mod_cast hW1
    have hfil : ((tokens text).map trimPunct).filter (fun w => !w.isEmpty) =
        (tokens text).map trimPunct := by
      rw [List.filter_eq_self]
      intro w hw
      rw [List.mem_map] at hw
      obtain ⟨u, hu, huw⟩ := hw
      subst huw
      simpa using htrim u hu
    have hlen : (trimmedTokens text).length = (tokens text).length := by
      rw [trimmedTokens, hfil, List.length_map]
    have hsumf : (∑ b in Finset.range 128,
        (((trimmedTokens text).countP fun w => bucket w == b : ℕ) : ℚ) /
          ((tokens text).length : ℚ)) = 1 := by
      rw [← Finset.sum_div, ← Nat.cast_sum, sum_countP_bucket, hlen]
      exact div_self (ne_of_gt hWpos)
    have hnval := normSq_preEmbedding text
    have hlow : 1 / 128 ≤ normSq (preEmbedding text) := by
      have hcs : (∑ b in Finset.range 128,
          (((trimmedTokens text).countP fun w => bucket w == b : ℕ) : ℚ) /
            ((tokens text).length : ℚ)) ^ 2 ≤
          ((Finset.range 128).card : ℚ) * ∑ b in Finset.range 128,
            ((((trimmedTokens text).countP fun w => bucket w == b : ℕ) : ℚ) /
              ((tokens text).length : ℚ)) ^ 2 := sq_sum_le_card_mul_sum_sq
      rw [hsumf, Finset.card_range, one_pow] at hcs
      push_cast at hcs
      rw [hnval]
      linarith
    have hhigh : normSq (preEmbedding text) ≤ 1 := by
      have hterm : ∀ b ∈ Finset.range 128,
          0 ≤ (((trimmedTokens text).countP fun w => bucket w == b : ℕ) : ℚ) /
            ((tokens text).length : ℚ) := by
        intro b _
        positivity
      have h2 := Finset.sum_sq_le_sq_sum_of_nonneg hterm
      rw [hsumf, one_pow] at h2
      rw [hnval]
      exact h2
    have hnpos : 0 < normSq (preEmbedding text) := lt_of_lt_of_le (by norm_num) hlow
    rw [normSq_gse_of_pos text hnpos]
    exact sqrtGo_norm_bounds _ hlow (le_trans hhigh (by norm_num))

/-- Witness for C6 at a concrete two-token text. -/
theorem claim6_witness :
    tokens "cat sat".toList ≠ [] ∧
    (∀ w ∈ tokens "cat sat".toList, trimPunct w ≠ []) ∧
    (1 - 1 / 1000 ≤ normSq (generateSimpleEmbedding "cat sat".toList) ∧
      normSq (generateSimpleEmbedding "cat sat".toList) ≤ 1) :=
  ⟨by decide, by decide,
   (claim6_deterministic_norm "cat sat".toList).2.2 (by decide) (by decide)⟩

set_option maxRecDepth 100000 in
/-- C6 counterexample: the claim as stated is false — the text `"a . . ..."`
(one real token followed by 512 punctuation-only tokens) has a surviving
token, yet the embedding's squared norm is about `0.93`, outside any
reasonable floating tolerance of 1: the pre-normalisation squared norm
`(1/513)^2` is so small that ten Newton steps started at `z = x` have not
converged. -/
theorem claim6_counterexample :
    (∃ w ∈ tokens ('a' :: (List.replicate 512 [' ', '.']).flatten), trimPunct w ≠ []) ∧
    normSq (generateSimpleEmbedding ('a' :: (List.replicate 512 [' ', '.']).flatten)) <
      1 - 1 / 100 := by
  have htrim : trimmedTokens ('a' :: (List.replicate 512 [' ', '.']).flatten) = [['a']] := by
    decide
  have hWn : (tokens ('a' :: (List.replicate 512 [' ', '.']).flatten)).length = 513 := by
    decide
  have hpre : normSq (preEmbedding ('a' :: (List.replicate 512 [' ', '.']).flatten)) =
      ((1 : ℚ) / 513) ^ 2 := by
    rw [normSq_preEmbedding_single _ _ htrim, hWn]
    norm_num
  have hnpos : 0 < normSq (preEmbedding ('a' :: (List.replicate 512 [' ', '.']).flatten)) := by
    rw [hpre]
    norm_num
  constructor
  · exact ⟨['a'], by decide, by decide⟩
  · rw [normSq_gse_of_pos _ hnpos, hpre]
    norm_num [sqrtGo, newtonIter]

/-- Witness for C4 at a concrete text. -/
theorem claim4_witness :
    ∃ ps : List (ℕ × ℕ),
      ChunkText 20 5 "hi there".toList =
        ps.map (fun p => trimSpace (goSlice (cleanText "hi there".toList) p.1 p.2)) ∧
      (ps.map Prod.fst).Pairwise (· < ·) ∧
      ∀ ck ∈ ChunkText 20 5 "hi there".toList,
        ck ≠ [] ∧ ck <:+: cleanText "hi there".toList ∧ IsTrimmed ck :=
  claim4_chunk_structure "hi there".toList 20 5

/-- Witness for C10 at a concrete text and chunk. -/
theorem claim10_witness :
    "hi".toList ∈ ChunkText 20 5 "hi".toList ∧ ("hi".toList).length ≤ 20 :=
  ⟨by decide, claim10_chunk_within_size "hi".toList 20 5 "hi".toList (by decide)⟩
